import Mathlib

/-!
Verification development for the tabular-data pipeline of the AutoML wizard
repository.  The four core functions of `utils/dataUtils.ts` — `parseCSV`,
`analyzeColumns`, `cleanData` and `trainModel` — are embedded below as
executable Lean definitions, together with the cell data model of `types.ts`.

JavaScript numbers are modelled by exact rationals extended with the three
special values `NaN`, `Infinity` and `-Infinity` (`JsNum`).  Floating-point
rounding is abstracted away: arithmetic on finite values is exact, while the
propagation rules for the special values follow IEEE-754 / ECMAScript
(division by zero, `NaN` contagion, falsiness of `NaN` and `0`, `NaN`
comparisons being false).  The negative zero of IEEE-754 is identified with
zero.  Number-to-string conversion renders the exact terminating decimal
expansion when one exists, which agrees with JavaScript on all values
produced by parsing decimal text.
-/

/-- Fuel-driven Euclidean gcd.  `Nat.gcd` is defined by well-founded
recursion and therefore does not reduce inside the kernel; this structural
version does, which keeps the whole embedding computable by `decide`. -/
def gcdF : Nat → Nat → Nat → Nat
  | 0, _, n => n
  | fuel + 1, m, n => if m = 0 then n else gcdF fuel (n % m) m

/-- Kernel-reducible gcd (the first argument strictly decreases on every
step, so `m + 1` units of fuel always suffice). -/
def ngcd (m n : Nat) : Nat := gcdF (m + 1) m n

/-- `ngcd` agrees with `Nat.gcd` (a proof-carrying definition so that it is
available to the definitions below). -/
def ngcdEq : ∀ m n : Nat, ngcd m n = Nat.gcd m n := by
  have key : ∀ fuel m k : Nat, m < fuel → gcdF fuel m k = Nat.gcd m k := by
    intro fuel
    induction fuel with
    | zero => intro m k h; omega
    | succ f ih =>
      intro m k h
      by_cases hm : m = 0
      · subst hm; simp [gcdF]
      · have hmpos : 0 < m := Nat.pos_of_ne_zero hm
        have hlt : k % m < f := lt_of_lt_of_le (Nat.mod_lt k hmpos) (Nat.lt_succ_iff.mp h)
        simp only [gcdF, hm, if_false]
        rw [ih (k % m) m hlt]
        exact (Nat.gcd_rec m k).symm
  intro m n
  exact key _ _ _ (Nat.lt_succ_self m)

/-- Kernel-reducible construction of the rational `n / d` in lowest terms
(0 when `d = 0`).  The rational operations of the library normalize through
`Nat.gcd` and so are opaque to kernel reduction; all arithmetic inside the
embedding goes through this constructor instead, and is proved equal to the
library operations below. -/
def qMk (n : Int) (d : Nat) : ℚ :=
  if hd : d = 0 then 0
  else
    ⟨n / (ngcd n.natAbs d : Int), d / ngcd n.natAbs d,
     by
      have hg : ngcd n.natAbs d = Nat.gcd n.natAbs d := ngcdEq _ _
      have hdpos : 0 < d := Nat.pos_of_ne_zero hd
      have hgpos : 0 < ngcd n.natAbs d := by
        rw [hg]; exact Nat.gcd_pos_of_pos_right _ hdpos
      have : 0 < d / ngcd n.natAbs d := by
        apply Nat.div_pos _ hgpos
        exact Nat.le_of_dvd hdpos (hg ▸ Nat.gcd_dvd_right _ _)
      omega,
     by
      have hg : ngcd n.natAbs d = Nat.gcd n.natAbs d := ngcdEq _ _
      have hdpos : 0 < d := Nat.pos_of_ne_zero hd
      have hgpos : 0 < ngcd n.natAbs d := by
        rw [hg]; exact Nat.gcd_pos_of_pos_right _ hdpos
      have hdvdn : ngcd n.natAbs d ∣ n.natAbs := hg ▸ Nat.gcd_dvd_left _ _
      have hdvdInt : ((ngcd n.natAbs d : Int)) ∣ n :=
        Int.natAbs_dvd_natAbs.mp (by simpa using hdvdn)
      have habs : (n / (ngcd n.natAbs d : Int)).natAbs = n.natAbs / ngcd n.natAbs d := by
        rw [Int.natAbs_ediv _ _ hdvdInt]
        simp
      rw [habs, hg]
      exact Nat.coprime_div_gcd_div_gcd (hg ▸ hgpos)⟩

/-- Kernel-reducible rational addition. -/
def qAdd (a b : ℚ) : ℚ := qMk (a.num * b.den + b.num * a.den) (a.den * b.den)

/-- Kernel-reducible rational multiplication. -/
def qMul (a b : ℚ) : ℚ := qMk (a.num * b.num) (a.den * b.den)

/-- Kernel-reducible rational division (0 when dividing by 0, matching the
library convention; the embedding never divides by a zero rational since
`jsDiv` tests for zero first). -/
def qDiv (a b : ℚ) : ℚ :=
  if 0 ≤ b.num then qMk (a.num * b.den) (a.den * b.num.natAbs)
  else qMk (-(a.num * b.den)) (a.den * b.num.natAbs)

/-- Kernel-reducible rational absolute value. -/
def qAbs (a : ℚ) : ℚ := if a.num < 0 then -a else a

/-- Kernel-reducible power of ten with integer exponent. -/
def qPow10 (e : Int) : ℚ :=
  if 0 ≤ e then qMk (Int.ofNat (10 ^ e.toNat)) 1 else qMk 1 (10 ^ (-e).toNat)

/-- A JavaScript number: an exact rational or one of the special values. -/
inductive JsNum where
  | fin (q : ℚ)
  | nan
  | inf
  | ninf
deriving DecidableEq, Repr

/-- Whether a number is the NaN value. -/
def JsNum.isNaN : JsNum → Bool
  | .nan => true
  | _ => false

/-- JavaScript unary minus. -/
def jsNeg : JsNum → JsNum
  | .fin a => .fin (-a)
  | .nan => .nan
  | .inf => .ninf
  | .ninf => .inf

/-- JavaScript addition. -/
def jsAdd : JsNum → JsNum → JsNum
  | .nan, _ => .nan
  | _, .nan => .nan
  | .fin a, .fin b => .fin (qAdd a b)
  | .inf, .ninf => .nan
  | .ninf, .inf => .nan
  | .inf, _ => .inf
  | _, .inf => .inf
  | .ninf, _ => .ninf
  | _, .ninf => .ninf

/-- JavaScript subtraction. -/
def jsSub (a b : JsNum) : JsNum := jsAdd a (jsNeg b)

/-- JavaScript multiplication. -/
def jsMul : JsNum → JsNum → JsNum
  | .nan, _ => .nan
  | _, .nan => .nan
  | .fin a, .fin b => .fin (qMul a b)
  | .inf, .inf => .inf
  | .inf, .ninf => .ninf
  | .ninf, .inf => .ninf
  | .ninf, .ninf => .inf
  | .inf, .fin b => if b = 0 then .nan else if 0 < b then .inf else .ninf
  | .fin a, .inf => if a = 0 then .nan else if 0 < a then .inf else .ninf
  | .ninf, .fin b => if b = 0 then .nan else if 0 < b then .ninf else .inf
  | .fin a, .ninf => if a = 0 then .nan else if 0 < a then .ninf else .inf

/-- JavaScript division, with the division-by-zero rules of IEEE-754. -/
def jsDiv : JsNum → JsNum → JsNum
  | .nan, _ => .nan
  | _, .nan => .nan
  | .fin a, .fin b =>
      if b = 0 then (if a = 0 then .nan else if 0 < a then .inf else .ninf)
      else .fin (qDiv a b)
  | .fin _, .inf => .fin 0
  | .fin _, .ninf => .fin 0
  | .inf, .fin b => if 0 ≤ b then .inf else .ninf
  | .ninf, .fin b => if 0 ≤ b then .ninf else .inf
  | .inf, .inf => .nan
  | .inf, .ninf => .nan
  | .ninf, .inf => .nan
  | .ninf, .ninf => .nan

/-- `Math.abs`. -/
def jsAbs : JsNum → JsNum
  | .fin a => .fin (qAbs a)
  | .nan => .nan
  | .inf => .inf
  | .ninf => .inf

/-- `Math.pow(x, 2)`, which coincides with `x * x`. -/
def jsPow2 (x : JsNum) : JsNum := jsMul x x

/-- The strict `>` comparison; any comparison with NaN is false. -/
def jsGt : JsNum → JsNum → Bool
  | .nan, _ => false
  | _, .nan => false
  | .fin a, .fin b => decide (b < a)
  | .inf, .inf => false
  | .inf, _ => true
  | _, .inf => false
  | .ninf, _ => false
  | _, .ninf => true

/-- JavaScript falsiness of a number: `0` and `NaN` are falsy. -/
def jsFalsy : JsNum → Bool
  | .fin q => decide (q = 0)
  | .nan => true
  | _ => false

/-- The `x || d` idiom on numbers: `d` when `x` is falsy, else `x`. -/
def jsOrDefault (x d : JsNum) : JsNum := if jsFalsy x then d else x

/-- A cell of a data row: `number | string | null`, plus the JavaScript
`undefined` value which untyped code can smuggle in. -/
inductive Cell where
  | num (j : JsNum)
  | str (s : String)
  | null
  | undefined
deriving DecidableEq, Repr

/-- Whitespace test used for trimming and for `parseFloat` skipping. -/
def isWsChar (c : Char) : Bool := c = ' ' || c = '\t' || c = '\n' || c = '\r'

/-- Trim whitespace from both ends of a character list. -/
def trimChars (cs : List Char) : List Char :=
  ((cs.dropWhile isWsChar).reverse.dropWhile isWsChar).reverse

/-- `String.prototype.trim` (ASCII whitespace; the Unicode extras of the
JavaScript definition are abstracted away). -/
def jsTrim (s : String) : String := String.mk (trimChars s.data)

/-- Split a character list at every occurrence of a separator character,
matching the behaviour of `String.prototype.split` with a one-character
separator: the empty list yields one empty field. -/
def splitChar (sep : Char) : List Char → List (List Char)
  | [] => [[]]
  | c :: rest =>
    let r := splitChar sep rest
    if c = sep then [] :: r
    else
      match r with
      | [] => [[c]]
      | h :: t => (c :: h) :: t

/-- `text.split('\n')` on strings. -/
def splitNewlines (s : String) : List String :=
  (splitChar '\n' s.data).map String.mk

/-- `text.split(',')` on strings. -/
def splitCommas (s : String) : List String :=
  (splitChar ',' s.data).map String.mk

/-- `v.replace(/^"|"$/g, '')`: remove one leading and one trailing double
quote when present. -/
def stripQuotes (s : String) : String :=
  let cs :=
    match s.data with
    | '"' :: t => t
    | t => t
  String.mk (if cs.getLast? = some '"' then cs.dropLast else cs)

/-- Decimal digit test. -/
def isDigitCh (c : Char) : Bool := '0' ≤ c && c ≤ '9'

/-- Numeric value of a decimal digit. -/
def digVal (c : Char) : Nat := c.toNat - '0'.toNat

/-- Value of a list of decimal digits. -/
def digitsToNat (ds : List Char) : Nat := ds.foldl (fun n c => 10 * n + digVal c) 0

/-- Parse the optional exponent part following a mantissa, as `parseFloat`
does: if no well-formed exponent prefix follows, contribute exponent 0. -/
def parseExpPart (cs : List Char) : Int :=
  match cs with
  | c :: rest =>
    if c = 'e' || c = 'E' then
      let (neg, r2) :=
        match rest with
        | '+' :: t => (false, t)
        | '-' :: t => (true, t)
        | t => (false, t)
      let ds := r2.takeWhile isDigitCh
      if ds = [] then 0 else (if neg then -1 else 1) * (digitsToNat ds : Int)
    else 0
  | [] => 0

/-- `parseFloat`: parse the longest prefix of the string that is a valid
decimal literal (optionally signed, `Infinity` allowed); NaN when no such
prefix exists.  The numeric value is kept exact rather than rounded to a
binary double. -/
def jsParseFloat (s : String) : JsNum :=
  let cs := s.data.dropWhile isWsChar
  let (neg, cs1) :=
    match cs with
    | '+' :: t => (false, t)
    | '-' :: t => (true, t)
    | t => (false, t)
  if cs1.take 8 = "Infinity".data then (if neg then .ninf else .inf)
  else
    let ip := cs1.takeWhile isDigitCh
    let r1 := cs1.dropWhile isDigitCh
    let (fp, r2) :=
      match r1 with
      | '.' :: t => (t.takeWhile isDigitCh, t.dropWhile isDigitCh)
      | _ => ([], r1)
    if ip = [] && fp = [] then .nan
    else
      let mant : ℚ := qAdd ((digitsToNat ip : Nat) : ℚ) (qMk (Int.ofNat (digitsToNat fp)) (10 ^ fp.length))
      let e : Int := parseExpPart r2
      let mag : ℚ := qMul mant (qPow10 e)
      .fin (if neg then -mag else mag)

/-- Hexadecimal digit test. -/
def isHexCh (c : Char) : Bool :=
  isDigitCh c || ('a' ≤ c && c ≤ 'f') || ('A' ≤ c && c ≤ 'F')

/-- Numeric value of a hexadecimal digit. -/
def hexVal (c : Char) : Nat :=
  if isDigitCh c then digVal c
  else if 'a' ≤ c && c ≤ 'f' then c.toNat - 'a'.toNat + 10
  else c.toNat - 'A'.toNat + 10

/-- Value of a digit list in a given base. -/
def baseDigitsToNat (base : Nat) (val : Char → Nat) (ds : List Char) : Nat :=
  ds.foldl (fun n c => base * n + val c) 0

/-- Full-string decimal-literal parse used by the `ToNumber` coercion of a
string: unlike `parseFloat`, the whole remainder must be consumed. -/
def fullDecimal (cs : List Char) : JsNum :=
  let (neg, cs1) :=
    match cs with
    | '+' :: t => (false, t)
    | '-' :: t => (true, t)
    | t => (false, t)
  if cs1 = "Infinity".data then (if neg then .ninf else .inf)
  else
    let ip := cs1.takeWhile isDigitCh
    let r1 := cs1.dropWhile isDigitCh
    let (fp, r2) :=
      match r1 with
      | '.' :: t => (t.takeWhile isDigitCh, t.dropWhile isDigitCh)
      | _ => ([], r1)
    if ip = [] && fp = [] then .nan
    else
      let mant : ℚ := qAdd ((digitsToNat ip : Nat) : ℚ) (qMk (Int.ofNat (digitsToNat fp)) (10 ^ fp.length))
      let value : Int → JsNum := fun e =>
        .fin (qMul (qMul (if neg then (-1 : ℚ) else 1) mant) (qPow10 e))
      match r2 with
      | [] => value 0
      | c :: rest =>
        if c = 'e' || c = 'E' then
          let (eneg, r3) :=
            match rest with
            | '+' :: t => (false, t)
            | '-' :: t => (true, t)
            | t => (false, t)
          let ds := r3.takeWhile isDigitCh
          if ds = [] || r3.dropWhile isDigitCh ≠ [] then .nan
          else value ((if eneg then -1 else 1) * (digitsToNat ds : Int))
        else .nan

/-- The `ToNumber` coercion applied to a string (ECMAScript StringNumericLiteral):
trimmed; empty means `0`; unsigned hex, octal and binary literals; otherwise a
full-string decimal literal, `NaN` on failure. -/
def strToNumber (s : String) : JsNum :=
  let t := (jsTrim s).data
  match t with
  | [] => .fin 0
  | '0' :: x :: rest =>
    if x = 'x' || x = 'X' then
      (if rest ≠ [] && rest.all isHexCh then .fin (baseDigitsToNat 16 hexVal rest : ℚ) else .nan)
    else if x = 'o' || x = 'O' then
      (if rest ≠ [] && rest.all (fun c => '0' ≤ c && c ≤ '7') then
        .fin (baseDigitsToNat 8 digVal rest : ℚ) else .nan)
    else if x = 'b' || x = 'B' then
      (if rest ≠ [] && rest.all (fun c => c = '0' || c = '1') then
        .fin (baseDigitsToNat 2 digVal rest : ℚ) else .nan)
    else fullDecimal t
  | _ => fullDecimal t

/-- Fuel-driven multiplicity count (structural recursion, so that it
reduces inside the kernel). -/
def padicCountF (p : Nat) : Nat → Nat → Nat
  | 0, _ => 0
  | fuel + 1, n =>
    if 1 < p ∧ 1 < n ∧ n % p = 0 then 1 + padicCountF p fuel (n / p) else 0

/-- Multiplicity of the factor `p` in `n` (used to test for terminating
decimal expansions); `n` units of fuel always suffice since the argument
shrinks at every step. -/
def padicCount (p n : Nat) : Nat := padicCountF p n n

/-- Render an integer with `k` digits after a decimal point. -/
def renderFixed (m : Int) (k : Nat) : String :=
  if k = 0 then toString m
  else
    let s := (toString m.natAbs).data
    let s2 := List.replicate (k + 1 - s.length) '0' ++ s
    let ipart := s2.take (s2.length - k)
    let fpart := s2.drop (s2.length - k)
    (if m < 0 then "-" else "") ++ String.mk ipart ++ "." ++ String.mk fpart

/-- String form of a finite JavaScript number: the exact terminating decimal
expansion when the denominator divides a power of ten (which covers every
value a binary double can take), with a fallback notation otherwise. -/
def ratToString (q : ℚ) : String :=
  let a := padicCount 2 q.den
  let b := padicCount 5 q.den
  if q.den = 2 ^ a * 5 ^ b then
    let k := max a b
    renderFixed (q.num * ((10 ^ k : Int) / (q.den : Int))) k
  else toString q

/-- `String(n)` for a JavaScript number. -/
def jsNumToString : JsNum → String
  | .nan => "NaN"
  | .inf => "Infinity"
  | .ninf => "-Infinity"
  | .fin q => ratToString q

/-- `String(v)` for a cell value. -/
def cellToString : Cell → String
  | .num j => jsNumToString j
  | .str s => s
  | .null => "null"
  | .undefined => "undefined"

/-- `ToNumber` coercion of a cell value. -/
def cellToNumber : Cell → JsNum
  | .num j => j
  | .str s => strToNumber s
  | .null => .fin 0
  | .undefined => .nan

/-- The JavaScript `+` operator on two primitive cell values: string
concatenation when either operand is a string, numeric addition otherwise. -/
def jsAddCell (a b : Cell) : Cell :=
  match a, b with
  | .str _, _ => .str (cellToString a ++ cellToString b)
  | _, .str _ => .str (cellToString a ++ cellToString b)
  | _, _ => .num (jsAdd (cellToNumber a) (cellToNumber b))

/-- A data row: an ordered association of column names to cell values,
mirroring a JavaScript object's insertion-ordered keys. -/
abbrev Row := List (String × Cell)

/-- `row[key]`: the value at a key, `undefined` when the key is absent. -/
def getCell (r : Row) (k : String) : Cell :=
  match r.find? (fun kv => kv.1 == k) with
  | some kv => kv.2
  | none => .undefined

/-- Assignment `row[key] = v` on an insertion-ordered object: update in
place when the key exists, append otherwise. -/
def setCell : Row → String → Cell → Row
  | [], k, v => [(k, v)]
  | kv :: r, k, v => if kv.1 = k then (k, v) :: r else kv :: setCell r k v

/-- Escaping of JSON string contents (the common escapes; other control
characters do not occur in the data considered here). -/
def jsonEscChar (c : Char) : String :=
  if c = '"' then "\\\""
  else if c = '\\' then "\\\\"
  else if c = '\n' then "\\n"
  else if c = '\t' then "\\t"
  else if c = '\r' then "\\r"
  else String.mk [c]

/-- Escape a string for inclusion in a JSON literal. -/
def jsonEscape (s : String) : String :=
  s.data.foldl (fun acc c => acc ++ jsonEscChar c) ""

/-- JSON form of one cell value; `none` for `undefined`, whose key is
omitted by `JSON.stringify`.  Non-finite numbers serialize as `null`. -/
def jsonCell : Cell → Option String
  | .undefined => none
  | .null => some "null"
  | .str s => some ("\"" ++ jsonEscape s ++ "\"")
  | .num .nan => some "null"
  | .num .inf => some "null"
  | .num .ninf => some "null"
  | .num (.fin q) => some (ratToString q)

/-- Concatenate strings with a separator. -/
def joinWith (sep : String) : List String → String
  | [] => ""
  | [x] => x
  | x :: xs => x ++ sep ++ joinWith sep xs

/-- `JSON.stringify(row)`, the canonical serialization used for row
deduplication. -/
def jsonRow (r : Row) : String :=
  "\x7b" ++
    joinWith ","
      (r.filterMap (fun kv =>
        (jsonCell kv.2).map (fun v => "\"" ++ jsonEscape kv.1 ++ "\":" ++ v))) ++
  "\x7d"

/-- The lines of the CSV text: global trim, then split on newlines. -/
def csvLines (text : String) : List String := splitNewlines (jsTrim text)

/-- Split a line into fields: split on commas, trim each field and strip one
pair of surrounding double quotes. -/
def splitFields (s : String) : List String :=
  (splitCommas s).map (fun f => stripQuotes (jsTrim f))

/-- The header fields of the CSV text (fields of its first line). -/
def csvHeaders (text : String) : List String :=
  match csvLines text with
  | [] => []
  | l :: _ => splitFields l

/-- Cast one field to a cell: a number when `parseFloat` succeeds, otherwise
`null` for the empty string and the string itself for anything else. -/
def mkCell (v : String) : Cell :=
  let numVal := jsParseFloat v
  if numVal.isNaN then (if v = "" then Cell.null else Cell.str v) else Cell.num numVal

/-- Build one row object by assigning each header its cast field value in
order. -/
def buildRow (headers vs : List String) : Row :=
  (headers.zip vs).foldl (fun r kv => setCell r kv.1 (mkCell kv.2)) []

/-- Process one data line: skip blank lines, drop lines whose field count
differs from the header count, and build a row otherwise. -/
def lineToRow (headers : List String) (line : String) : Option Row :=
  let rowStr := jsTrim line
  if rowStr = "" then none
  else
    let values := splitFields rowStr
    if values.length = headers.length then some (buildRow headers values) else none

/-- `parseCSV` of `utils/dataUtils.ts`. -/
def parseCSV (text : String) : List Row :=
  let lines := csvLines text
  if lines.length < 2 then []
  else (lines.drop 1).filterMap (lineToRow (csvHeaders text))

/-- The inferred type of a column. -/
inductive CType where
  | number
  | string
deriving DecidableEq, Repr

/-- The per-column statistics record of `types.ts`. -/
structure ColumnStat where
  name : String
  type : CType
  missingCount : Nat
  uniqueCount : Nat
  sample : List Cell
deriving DecidableEq, Repr

/-- The missing-value test of `analyzeColumns`: `null`, `undefined` or the
empty string. -/
def isMissingA : Cell → Bool
  | .null => true
  | .undefined => true
  | .str s => s = ""
  | _ => false

/-- The missing-value test of `cleanData`: `null` or the empty string
(`undefined` is not matched by these strict comparisons). -/
def isMissingNE : Cell → Bool
  | .null => true
  | .str s => s = ""
  | _ => false

/-- Whether a cell holds a number (`typeof v === 'number'`). -/
def isNumCell : Cell → Bool
  | .num _ => true
  | _ => false

/-- The column of cells at one key across a row set. -/
def colCells (data : List Row) (key : String) : List Cell :=
  data.map (fun r => getCell r key)

/-- First-occurrence deduplication, the key-set semantics of a JavaScript
`Set` (and of insertion-ordered object keys). -/
def insertIfNew [DecidableEq α] (ks : List α) (k : α) : List α :=
  if k ∈ ks then ks else ks ++ [k]

/-- First-occurrence-preserving list of distinct elements. -/
def nub [DecidableEq α] (l : List α) : List α := l.foldl insertIfNew []

/-- The statistics of a single column, as computed by `analyzeColumns`:
missing count, non-missing values, numeric share with the `> 0.8` type
heuristic, distinct-value count, and the first five values as a sample. -/
def statFor (data : List Row) (key : String) : ColumnStat :=
  let cells := colCells data key
  let values := cells.filter (fun c => !(isMissingA c))
  let missing := (cells.filter (fun c => isMissingA c)).length
  let numberCount := (values.filter (fun c => isNumCell c)).length
  let t :=
    if jsGt (jsDiv (.fin (numberCount : ℚ)) (.fin (values.length : ℚ))) (.fin (qMk 4 5))
    then CType.number else CType.string
  ⟨key, t, missing, (nub values).length, values.take 5⟩

/-- `analyzeColumns` of `utils/dataUtils.ts`: one stat per key of the first
row; empty input yields no stats. -/
def analyzeColumns (data : List Row) : List ColumnStat :=
  match data with
  | [] => []
  | r0 :: _ => (r0.map (fun kv => kv.1)).map (statFor data)

/-- The cleaning method selector of `types.ts`. -/
inductive CleanMethod where
  | drop_rows
  | fill_mean
  | fill_median
  | fill_mode
deriving DecidableEq, Repr

/-- The cleaning options record of `types.ts`. -/
structure CleaningOptions where
  method : CleanMethod
  targetColumns : List String
deriving DecidableEq, Repr

/-- Comparator ordering used by `sort((a, b) => a - b)`: subtraction of the
numeric coercions; a NaN comparator result is treated as equality, keeping
the stable order. -/
def medLe (a b : Cell) : Bool :=
  match jsSub (cellToNumber a) (cellToNumber b) with
  | .fin q => decide (q ≤ 0)
  | .nan => true
  | .ninf => true
  | .inf => false

/-- Stable insertion of an element into a sorted list: the element passes an
existing one only when that one is strictly smaller. -/
def insertSorted (le : α → α → Bool) (x : α) : List α → List α
  | [] => [x]
  | y :: ys => if le y x && !(le x y) then y :: insertSorted le x ys else x :: y :: ys

/-- Stable sort by a boolean comparison. -/
def sortByLe (le : α → α → Bool) (l : List α) : List α :=
  l.foldr (insertSorted le) []

/-- `calculateMedian`: 0 for the empty list, the middle element of the
ascending sort when the count is odd, the average of the two middle elements
otherwise. -/
def calculateMedian (values : List Cell) : Cell :=
  if values.length = 0 then Cell.num (.fin 0)
  else
    let sorted := sortByLe medLe values
    let mid := sorted.length / 2
    if sorted.length % 2 ≠ 0 then sorted.getD mid Cell.undefined
    else
      Cell.num (jsDiv
        (cellToNumber (jsAddCell (sorted.getD (mid - 1) Cell.undefined) (sorted.getD mid Cell.undefined)))
        (.fin 2))

/-- `calculateMode`: most frequent value by stringified key, ties broken by
first occurrence; `undefined` (the `values[0]` of an empty array) when the
value list is empty. -/
def calculateMode (values : List Cell) : Cell :=
  let init : List (String × Nat) × Nat × Cell :=
    ([], 0, match values with | [] => Cell.undefined | v :: _ => v)
  let final := values.foldl
    (fun acc v =>
      let (counts, maxCount, mode) := acc
      let k := cellToString v
      let n := (match counts.find? (fun kv => kv.1 == k) with
                | some kv => kv.2
                | none => 0) + 1
      let counts2 :=
        match counts.find? (fun kv => kv.1 == k) with
        | some _ => counts.map (fun kv => if kv.1 == k then (kv.1, n) else kv)
        | none => counts ++ [(k, n)]
      if n > maxCount then (counts2, n, v) else (counts2, maxCount, mode))
    init
  final.2.2

/-- The fill value for one column, as computed by the fill branch of
`cleanData`: mean, median or mode for a numeric-profiled column (the mean
being the JavaScript `reduce`-and-divide, which concatenates when a string
value slips in), and always the mode for a string-profiled column. -/
def fillValueFor (method : CleanMethod) (st : ColumnStat) (validValues : List Cell) : Cell :=
  if st.type = CType.number then
    match method with
    | .fill_mean =>
      Cell.num (jsDiv
        (cellToNumber (validValues.foldl jsAddCell (Cell.num (.fin 0))))
        (.fin (validValues.length : ℚ)))
    | .fill_median => calculateMedian validValues
    | _ => calculateMode validValues
  else calculateMode validValues

/-- Process one target column of the fill pass: no-op when the column has no
stat entry, otherwise replace each missing cell with the fill value computed
from the current (cumulative) row set. -/
def fillColumn (stats : List ColumnStat) (method : CleanMethod)
    (cleaned : List Row) (col : String) : List Row :=
  match stats.find? (fun s => s.name == col) with
  | none => cleaned
  | some st =>
    let validValues :=
      (cleaned.map (fun r => getCell r col)).filter (fun v => !(isMissingNE v))
    let fv := fillValueFor method st validValues
    cleaned.map (fun r => if isMissingNE (getCell r col) then setCell r col fv else r)

/-- The sequential fill pass over the target columns, each column seeing the
cumulative effect of the previous ones. -/
def applyFills (stats : List ColumnStat) (method : CleanMethod) :
    List Row → List String → List Row
  | cleaned, [] => cleaned
  | cleaned, col :: rest => applyFills stats method (fillColumn stats method cleaned col) rest

/-- The always-on final deduplication loop of `cleanData`, keyed by a
serialization function. -/
def dedupAux (f : α → String) : List String → List α → List α
  | _, [] => []
  | seen, x :: xs =>
    if f x ∈ seen then dedupAux f seen xs
    else x :: dedupAux f (f x :: seen) xs

/-- Deduplicate rows by their `JSON.stringify` serialization, keeping first
occurrences in order. -/
def dedupRows (rows : List Row) : List Row := dedupAux jsonRow [] rows

/-- `cleanData` of `utils/dataUtils.ts`: the drop pass or the sequential
fill pass, followed by the unconditional deduplication. -/
def cleanData (data : List Row) (stats : List ColumnStat) (options : CleaningOptions) :
    List Row :=
  let cleaned :=
    if options.method = CleanMethod.drop_rows then
      data.filter (fun row =>
        !(options.targetColumns.any (fun col => isMissingNE (getCell row col))))
    else applyFills stats options.method data options.targetColumns
  dedupRows cleaned

/-- The metrics record returned by `trainModel`; predictions are
`(actual, predicted)` pairs in test-row order. -/
structure Metrics where
  mae : JsNum
  mse : JsNum
  r2 : JsNum
  predictions : List (JsNum × JsNum)
deriving DecidableEq, Repr

/-- The validity filter of `trainModel`: the target and every feature column
hold a number. -/
def validRow (target : String) (features : List String) (r : Row) : Bool :=
  isNumCell (getCell r target) && features.all (fun f => isNumCell (getCell r f))

/-- Read a cell as a number (the `as number` cast; rows passed here always
satisfy `validRow`). -/
def cellNum : Cell → JsNum
  | .num j => j
  | _ => .nan

/-- The values of one column over the training rows. -/
def colVals (tr : List Row) (col : String) : List JsNum :=
  tr.map (fun r => cellNum (getCell r col))

/-- Training-set mean of a column (`reduce`-sum divided by the length, NaN
on an empty training set). -/
def colMean (tr : List Row) (col : String) : JsNum :=
  jsDiv ((colVals tr col).foldl jsAdd (.fin 0)) (.fin (tr.length : ℚ))

/-- Training-set population standard deviation of a column, as
`Math.sqrt(variance) || 1`; the square root on finite values is abstracted
as a parameter, since its value is irrational in general. -/
def colStd (sq : JsNum → JsNum) (tr : List Row) (col : String) : JsNum :=
  let m := colMean tr col
  let variance :=
    jsDiv ((colVals tr col).foldl (fun a b => jsAdd a (jsPow2 (jsSub b m))) (.fin 0))
      (.fin (tr.length : ℚ))
  jsOrDefault (sq variance) (.fin 1)

/-- Normalization map of one column: `(value - mean) / std`. -/
def normalizeVal (sq : JsNum → JsNum) (tr : List Row) (col : String) (v : JsNum) : JsNum :=
  jsDiv (jsSub v (colMean tr col)) (colStd sq tr col)

/-- Denormalization map of one column: `value * std + mean`. -/
def denormalizeVal (sq : JsNum → JsNum) (tr : List Row) (col : String) (v : JsNum) : JsNum :=
  jsAdd (jsMul v (colStd sq tr col)) (colMean tr col)

/-- The fixed learning rate of the trainer. -/
def learningRate : JsNum := .fin (qMk 1 10000)

/-- One SGD update from a single training row: predict from the current
weights and bias in normalized space, then immediately apply the gradient
step to the bias and to each feature weight in feature order. -/
def sgdRowStep (sq : JsNum → JsNum) (tr : List Row) (target : String)
    (features : List String) (st : (String → JsNum) × JsNum) (row : Row) :
    (String → JsNum) × JsNum :=
  let w := st.1
  let b := st.2
  let pred := features.foldl
    (fun acc f => jsAdd acc (jsMul (w f) (normalizeVal sq tr f (cellNum (getCell row f))))) b
  let actual := normalizeVal sq tr target (cellNum (getCell row target))
  let err := jsSub pred actual
  let b2 := jsSub b (jsMul learningRate err)
  let w2 := features.foldl
    (fun wf f => fun f2 =>
      if f2 = f then
        jsSub (wf f) (jsMul (jsMul learningRate err) (normalizeVal sq tr f (cellNum (getCell row f))))
      else wf f2)
    w
  (w2, b2)

/-- The 500-epoch SGD training loop over the training rows in original
order, starting from all-zero weights and bias. -/
def trainLoop (sq : JsNum → JsNum) (tr : List Row) (target : String)
    (features : List String) : (String → JsNum) × JsNum :=
  (List.range 500).foldl (fun st _ => tr.foldl (sgdRowStep sq tr target features) st)
    (fun _ => .fin 0, .fin 0)

/-- One evaluation step over a test row: accumulate the squared and absolute
errors of the denormalized prediction and append the
`(actual, predicted)` pair. -/
def evalStep (sq : JsNum → JsNum) (tr : List Row) (target : String)
    (features : List String) (w : String → JsNum) (b : JsNum)
    (acc : JsNum × JsNum × List (JsNum × JsNum)) (row : Row) :
    JsNum × JsNum × List (JsNum × JsNum) :=
  let np := features.foldl
    (fun a f => jsAdd a (jsMul (w f) (normalizeVal sq tr f (cellNum (getCell row f))))) b
  let predicted := denormalizeVal sq tr target np
  let actual := cellNum (getCell row target)
  (jsAdd acc.1 (jsPow2 (jsSub actual predicted)),
   jsAdd acc.2.1 (jsAbs (jsSub actual predicted)),
   acc.2.2 ++ [(actual, predicted)])

/-- `trainModel` of `utils/dataUtils.ts`: filter to numerically valid rows,
deterministic order-preserving split at `floor(length * frac)`, normalized
SGD fit on the training slice, evaluation and metrics on the test slice.
The square root used for the standard deviation is passed as `sq`. -/
def trainModel (sq : JsNum → JsNum) (data : List Row) (target : String)
    (features : List String) (frac : ℚ) : Metrics :=
  let validData := data.filter (validRow target features)
  let splitIndex : Nat := (⌊qMul ((validData.length : Nat) : ℚ) frac⌋).toNat
  let trainData := validData.take splitIndex
  let testData := validData.drop splitIndex
  let wb := trainLoop sq trainData target features
  let ev := testData.foldl (evalStep sq trainData target features wb.1 wb.2)
    (.fin 0, .fin 0, [])
  let n : JsNum := .fin (testData.length : ℚ)
  let mse := jsDiv ev.1 n
  let mae := jsDiv ev.2.1 n
  let targetMean :=
    jsDiv (testData.foldl (fun a r => jsAdd a (cellNum (getCell r target))) (.fin 0)) n
  let totalVariance := testData.foldl
    (fun a r => jsAdd a (jsPow2 (jsSub (cellNum (getCell r target)) targetMean))) (.fin 0)
  let r2 := jsSub (.fin 1) (jsDiv ev.1 totalVariance)
  ⟨mae, mse, r2, ev.2.2⟩

/-- Count of non-missing cells of a column (missing as `analyzeColumns`
counts it: `null`, `undefined` or the empty string). -/
def nonMissingCount (data : List Row) (key : String) : Nat :=
  ((colCells data key).filter (fun c => !(isMissingA c))).length

/-- Count of numeric non-missing cells of a column. -/
def numericCount (data : List Row) (key : String) : Nat :=
  ((colCells data key).filter (fun c => !(isMissingA c) && isNumCell c)).length

/-- Rational value of a finite numeric cell (0 otherwise). -/
def ratOfCell : Cell → ℚ
  | .num (.fin q) => q
  | _ => 0

/-- Whether a cell is a finite number. -/
def isFinNum : Cell → Bool
  | .num (.fin _) => true
  | _ => false

/-- The arithmetic mean of a column's non-missing values (missing as
`cleanData` tests it: `null` or the empty string), read as rationals. -/
def specMean (rows : List Row) (c : String) : ℚ :=
  (((colCells rows c).filter (fun v => !(isMissingNE v))).map ratOfCell).sum /
    (((colCells rows c).filter (fun v => !(isMissingNE v))).length : ℚ)

/-- The denormalized prediction of the trained model on one row. -/
def predictedOf (sq : JsNum → JsNum) (tr : List Row) (target : String)
    (features : List String) (w : String → JsNum) (b : JsNum) (row : Row) : JsNum :=
  denormalizeVal sq tr target
    (features.foldl
      (fun a f => jsAdd a (jsMul (w f) (normalizeVal sq tr f (cellNum (getCell row f))))) b)

/-- A single-column row set whose column is profiled numeric (five numbers
against one string, a 5/6 share) yet contains a non-numeric string, plus
one missing cell. -/
def rowsMixedNumeric : List Row :=
  [[("a", Cell.num (.fin 1))], [("a", Cell.num (.fin 2))], [("a", Cell.num (.fin 3))],
   [("a", Cell.num (.fin 4))], [("a", Cell.num (.fin 5))], [("a", Cell.str "x")],
   [("a", Cell.null)]]

/-- A small numeric column with one missing cell: non-missing values 1 and
2, mean 3/2. -/
def rowsSmallFill : List Row :=
  [[("a", Cell.num (.fin 1))], [("a", Cell.num (.fin 2))], [("a", Cell.null)]]

/-- `ngcd` agrees with the library gcd. -/
theorem ngcd_eq (m n : Nat) : ngcd m n = Nat.gcd m n := ngcdEq m n

/-- `qMk n d` is the library rational `n / d`. -/
theorem qMk_eq (n : Int) (d : Nat) : qMk n d = (n : ℚ) / (d : ℚ) := by
  by_cases hd : d = 0
  · subst hd; simp [qMk]
  · have hdpos : 0 < d := Nat.pos_of_ne_zero hd
    have hg : ngcd n.natAbs d = Nat.gcd n.natAbs d := ngcd_eq _ _
    have hgpos : 0 < ngcd n.natAbs d := by rw [hg]; exact Nat.gcd_pos_of_pos_right _ hdpos
    have hdvdn : ((ngcd n.natAbs d : Int)) ∣ n :=
      Int.natAbs_dvd_natAbs.mp (by simpa using (hg ▸ Nat.gcd_dvd_left n.natAbs d))
    have hdvdd : ngcd n.natAbs d ∣ d := hg ▸ Nat.gcd_dvd_right _ _
    have hnum : (qMk n d).num = n / (ngcd n.natAbs d : Int) := by simp [qMk, hd]
    have hden : (qMk n d).den = d / ngcd n.natAbs d := by simp [qMk, hd]
    generalize hgG : ngcd n.natAbs d = g at hnum hden hgpos hdvdn hdvdd
    obtain ⟨n1, hn1⟩ := hdvdn
    obtain ⟨d1, hd1⟩ := hdvdd
    have hgz : ((g : Int)) ≠ 0 := by exact_mod_cast hgpos.ne'
    have hn1eq : n / (g : Int) = n1 := by
      rw [hn1]; exact Int.mul_ediv_cancel_left _ hgz
    have hd1eq : d / g = d1 := by
      rw [hd1]; exact Nat.mul_div_cancel_left _ hgpos
    have hrepr := Rat.num_div_den (qMk n d)
    rw [hnum, hden, hn1eq, hd1eq] at hrepr
    rw [← hrepr]
    have hdQ : ((d : ℚ)) ≠ 0 := by exact_mod_cast hd
    have hd1z : ((d1 : ℚ)) ≠ 0 := by
      have : d1 ≠ 0 := by rintro rfl; rw [Nat.mul_zero] at hd1; exact hd hd1
      exact_mod_cast this
    rw [div_eq_div_iff hd1z hdQ]
    rw [hn1, hd1]
    push_cast
    ring

/-- A rational times its own denominator is its numerator. -/
theorem rat_mul_den (q : ℚ) : q * ((q.den : ℚ)) = ((q.num : ℚ)) := by
  have hden : ((q.den : ℚ)) ≠ 0 := by exact_mod_cast q.den_nz
  have h := div_mul_cancel₀ ((q.num : ℚ)) hden
  rw [Rat.num_div_den q] at h
  exact h

/-- `qAdd` is library addition. -/
theorem qAdd_eq (a b : ℚ) : qAdd a b = a + b := by
  rw [qAdd, qMk_eq]
  have ha : ((a.den : ℚ)) ≠ 0 := by exact_mod_cast a.den_nz
  have hb : ((b.den : ℚ)) ≠ 0 := by exact_mod_cast b.den_nz
  rw [div_eq_iff (by push_cast; exact mul_ne_zero ha hb)]
  push_cast
  rw [← rat_mul_den a, ← rat_mul_den b]
  ring

/-- `qMul` is library multiplication. -/
theorem qMul_eq (a b : ℚ) : qMul a b = a * b := by
  rw [qMul, qMk_eq]
  have ha : ((a.den : ℚ)) ≠ 0 := by exact_mod_cast a.den_nz
  have hb : ((b.den : ℚ)) ≠ 0 := by exact_mod_cast b.den_nz
  rw [div_eq_iff (by push_cast; exact mul_ne_zero ha hb)]
  push_cast
  rw [← rat_mul_den a, ← rat_mul_den b]
  ring

/-- `qDiv` is library division. -/
theorem qDiv_eq (a b : ℚ) : qDiv a b = a / b := by
  by_cases hb0 : b = 0
  · subst hb0
    simp [qDiv, qMk]
  · have hbnum : b.num ≠ 0 := Rat.num_ne_zero.mpr hb0
    have hD : (((a.den * b.num.natAbs : Nat) : ℚ)) ≠ 0 := by
      have : a.den * b.num.natAbs ≠ 0 :=
        Nat.mul_ne_zero a.den_nz (by simpa using hbnum)
      exact_mod_cast this
    by_cases hbs : 0 ≤ b.num
    · rw [qDiv, if_pos hbs, qMk_eq, div_eq_div_iff hD hb0]
      have habsQ : (((b.num.natAbs : Nat)) : ℚ) = ((b.num : Int) : ℚ) := by
        rw [Int.cast_natAbs]
        exact_mod_cast abs_of_nonneg hbs
      push_cast [habsQ]
      rw [← rat_mul_den a, ← rat_mul_den b]
      ring
    · rw [qDiv, if_neg hbs, qMk_eq, div_eq_div_iff hD hb0]
      have habsQ : (((b.num.natAbs : Nat)) : ℚ) = -((b.num : Int) : ℚ) := by
        rw [Int.cast_natAbs]
        exact_mod_cast abs_of_neg (lt_of_not_le hbs)
      push_cast [habsQ]
      rw [← rat_mul_den a, ← rat_mul_den b]
      ring

/-- `qAbs` is the library absolute value. -/
theorem qAbs_eq (a : ℚ) : qAbs a = |a| := by
  by_cases h : a.num < 0
  · rw [qAbs, if_pos h, abs_of_neg]
    have : ¬ (0 ≤ a) := by
      rw [← Rat.num_nonneg]
      omega
    exact lt_of_not_le this
  · rw [qAbs, if_neg h, abs_of_nonneg]
    rw [← Rat.num_nonneg]
    omega

/-- `qPow10` is the library integer power of ten. -/
theorem qPow10_eq (e : Int) : qPow10 e = (10 : ℚ) ^ e := by
  by_cases he : 0 ≤ e
  · obtain ⟨k, rfl⟩ : ∃ k : Nat, e = (k : Int) := ⟨e.toNat, by omega⟩
    rw [qPow10, if_pos he, qMk_eq, zpow_natCast]
    push_cast
    simp
  · obtain ⟨k, rfl⟩ : ∃ k : Nat, e = -(k : Int) := ⟨(-e).toNat, by omega⟩
    rw [qPow10, if_neg he, qMk_eq]
    rw [zpow_neg, zpow_natCast]
    push_cast
    simp [one_div]

/-- The deduplication loop returns a sublist of its input. -/
theorem dedupAux_sublist (f : α → String) :
    ∀ (seen : List String) (l : List α), List.Sublist (dedupAux f seen l) l := by
  intro seen l
  induction l generalizing seen with
  | nil => simp [dedupAux]
  | cons x xs ih =>
    simp only [dedupAux]
    split
    · exact (ih seen).cons x
    · exact (ih (f x :: seen)).cons₂ x

/-- Membership in the deduplicated list implies membership in the input. -/
theorem dedupAux_mem (f : α → String) (seen : List String) (l : List α) (x : α)
    (hx : x ∈ dedupAux f seen l) : x ∈ l :=
  (dedupAux_sublist f seen l).mem hx

/-- The deduplication loop is idempotent. -/
theorem dedupAux_idem (f : α → String) :
    ∀ (seen : List String) (l : List α),
      dedupAux f seen (dedupAux f seen l) = dedupAux f seen l := by
  intro seen l
  induction l generalizing seen with
  | nil => simp [dedupAux]
  | cons x xs ih =>
    by_cases h : f x ∈ seen
    · simp [dedupAux, h, ih]
    · simp only [dedupAux, h, if_neg, ite_false]
      simp [dedupAux, h, ih (f x :: seen)]

/-- The serializations of the deduplicated list are distinct and avoid the
seen set. -/
theorem dedupAux_nodup (f : α → String) :
    ∀ (seen : List String) (l : List α),
      ((dedupAux f seen l).map f).Nodup ∧ ∀ x ∈ dedupAux f seen l, f x ∉ seen := by
  intro seen l
  induction l generalizing seen with
  | nil => simp [dedupAux]
  | cons x xs ih =>
    by_cases h : f x ∈ seen
    · simpa [dedupAux, h] using ih seen
    · obtain ⟨h1, h2⟩ := ih (f x :: seen)
      simp only [dedupAux, h, ite_false, List.map_cons, List.nodup_cons]
      refine ⟨⟨?_, h1⟩, ?_⟩
      · intro hmem
        obtain ⟨y, hy, hyx⟩ := List.mem_map.mp hmem
        exact (h2 y hy) (by simp [hyx])
      · intro y hy
        rcases List.mem_cons.mp hy with rfl | hy2
        · exact h
        · intro hin
          exact (h2 y hy2) (List.mem_cons_of_mem _ hin)

/-- Every input element's serialization is either already seen or appears
in the deduplicated output. -/
theorem dedupAux_covers (f : α → String) :
    ∀ (seen : List String) (l : List α) (x : α), x ∈ l →
      f x ∈ seen ∨ f x ∈ (dedupAux f seen l).map f := by
  intro seen l
  induction l generalizing seen with
  | nil => intro x hx; cases hx
  | cons y ys ih =>
    intro x hx
    by_cases h : f y ∈ seen
    · rcases List.mem_cons.mp hx with rfl | hx2
      · exact Or.inl h
      · simpa [dedupAux, h] using ih seen x hx2
    · simp only [dedupAux, h, ite_false, List.map_cons]
      rcases List.mem_cons.mp hx with rfl | hx2
      · exact Or.inr (List.mem_cons_self _ _)
      · rcases ih (f y :: seen) x hx2 with hseen | hout
        · rcases List.mem_cons.mp hseen with heq | hseen2
          · exact Or.inr (by simp [heq])
          · exact Or.inl hseen2
        · exact Or.inr (List.mem_cons_of_mem _ hout)

/-- With an empty target-column set, `cleanData` is exactly the final
deduplication, whatever the method. -/
theorem cleanData_empty_targets (rows : List Row) (s : List ColumnStat) (m : CleanMethod) :
    cleanData rows s ⟨m, []⟩ = dedupRows rows := by
  cases m <;> simp [cleanData, applyFills, List.any_nil]

/-- Boolean de Morgan over a list: not-any equals all-not. -/
theorem bool_not_any (p : α → Bool) (l : List α) :
    (!(l.any p)) = l.all (fun x => !(p x)) := by
  induction l with
  | nil => rfl
  | cons x xs ih => simp only [List.any_cons, List.all_cons, Bool.not_or, ih]

/-- Reading back the key just assigned. -/
theorem getCell_setCell (r : Row) (k : String) (v : Cell) :
    getCell (setCell r k v) k = v := by
  induction r with
  | nil => simp [setCell, getCell, List.find?]
  | cons kv r ih =>
    by_cases h : kv.1 = k
    · simp [setCell, h, getCell, List.find?]
    · have hb : (kv.1 == k) = false := by simp [h]
      simp only [setCell, h, ite_false]
      simpa [getCell, List.find?, hb] using ih

/-- Membership after an assignment: the new pair or an old one. -/
theorem mem_setCell (r : Row) (k : String) (v : Cell) (p : String × Cell)
    (hp : p ∈ setCell r k v) : p = (k, v) ∨ p ∈ r := by
  induction r with
  | nil => simpa [setCell] using hp
  | cons kv r ih =>
    by_cases h : kv.1 = k
    · simp only [setCell, h, ite_true] at hp
      rcases List.mem_cons.mp hp with rfl | hp2
      · exact Or.inl rfl
      · exact Or.inr (List.mem_cons_of_mem _ hp2)
    · simp only [setCell, h, ite_false] at hp
      rcases List.mem_cons.mp hp with rfl | hp2
      · exact Or.inr (List.mem_cons_self _ _)
      · rcases ih hp2 with h1 | h2
        · exact Or.inl h1
        · exact Or.inr (List.mem_cons_of_mem _ h2)

/-- Keys after an assignment: unchanged when present, appended when new. -/
theorem keys_setCell (r : Row) (k : String) (v : Cell) :
    (setCell r k v).map Prod.fst = insertIfNew (r.map Prod.fst) k := by
  induction r with
  | nil => simp [setCell, insertIfNew]
  | cons kv r ih =>
    by_cases h : kv.1 = k
    · simp [setCell, h, insertIfNew, List.mem_cons]
    · simp only [setCell, h, ite_false, List.map_cons]
      rw [ih]
      by_cases hk : k ∈ r.map Prod.fst
      · simp [insertIfNew, hk, List.mem_cons, Ne.symm h]
      · simp [insertIfNew, hk, List.mem_cons, Ne.symm h]

/-- Keys of the row-building fold: first-occurrence deduplication of the
assigned keys, appended to the initial keys. -/
theorem keys_buildRow_foldl :
    ∀ (pairs : List (String × String)) (r : Row),
      ((pairs.foldl (fun r kv => setCell r kv.1 (mkCell kv.2)) r).map Prod.fst) =
        (pairs.map Prod.fst).foldl insertIfNew (r.map Prod.fst) := by
  intro pairs
  induction pairs with
  | nil => intro r; rfl
  | cons kv rest ih =>
    intro r
    simp only [List.foldl_cons, List.map_cons]
    rw [ih, keys_setCell]

/-- The keys of a built row are the distinct headers in first-occurrence
order, provided as many values as headers are supplied. -/
theorem keys_buildRow (hs vs : List String) (hlen : vs.length = hs.length) :
    (buildRow hs vs).map Prod.fst = nub hs := by
  unfold buildRow nub
  rw [keys_buildRow_foldl]
  have : (hs.zip vs).map Prod.fst = hs := List.map_fst_zip hs vs (le_of_eq hlen.symm)
  rw [this]
  rfl

/-- Cells of a built row all arise as `mkCell` of some field text. -/
theorem mem_buildRow_foldl :
    ∀ (pairs : List (String × String)) (r : Row) (p : String × Cell),
      p ∈ pairs.foldl (fun r kv => setCell r kv.1 (mkCell kv.2)) r →
        p ∈ r ∨ ∃ kv ∈ pairs, p = (kv.1, mkCell kv.2) := by
  intro pairs
  induction pairs with
  | nil => intro r p hp; exact Or.inl hp
  | cons kv rest ih =>
    intro r p hp
    simp only [List.foldl_cons] at hp
    rcases ih _ p hp with hleft | ⟨kv2, hkv2, rfl⟩
    · rcases mem_setCell _ _ _ _ hleft with rfl | hold
      · exact Or.inr ⟨kv, List.mem_cons_self _ _, rfl⟩
      · exact Or.inl hold
    · exact Or.inr ⟨kv2, List.mem_cons_of_mem _ hkv2, rfl⟩

/-- A successful line parse yields the row built from its fields. -/
theorem lineToRow_eq_some (hs : List String) (l : String) (r : Row)
    (h : lineToRow hs l = some r) :
    jsTrim l ≠ "" ∧ (splitFields (jsTrim l)).length = hs.length ∧
      r = buildRow hs (splitFields (jsTrim l)) := by
  simp only [lineToRow] at h
  split_ifs at h with h1 h2
  · exact ⟨h1, h2, (Option.some_injective _ h).symm⟩

/-- A row of `parseCSV` comes from some line via `lineToRow`. -/
theorem mem_parseCSV (text : String) (r : Row) (hr : r ∈ parseCSV text) :
    ∃ l ∈ (csvLines text).drop 1, lineToRow (csvHeaders text) l = some r := by
  simp only [parseCSV] at hr
  split_ifs at hr
  · cases hr
  · exact List.mem_filterMap.mp hr

/-- The length of a `filterMap` equals the count of inputs it keeps. -/
theorem length_filterMap_eq (f : α → Option β) (l : List α) :
    (l.filterMap f).length = (l.filter (fun a => (f a).isSome)).length := by
  induction l with
  | nil => rfl
  | cons x xs ih =>
    cases hx : f x <;> simp [List.filterMap_cons, List.filter_cons, hx, ih]

/-- When a line is kept by the parser. -/
theorem lineToRow_isSome (hs : List String) (l : String) :
    (lineToRow hs l).isSome =
      decide (jsTrim l ≠ "" ∧ (splitFields (jsTrim l)).length = hs.length) := by
  simp only [lineToRow]
  split_ifs with h1 h2
  · simp [h1]
  · simp [h1, h2]
  · simp [h1, h2]

/-- The `> 0.8` numeric-share test in exact arithmetic: for counts
`a ≤ b`, the JavaScript comparison `a / b > 0.8` holds exactly when
`4 b < 5 a`; in particular it is false when `b = 0`, where the division
yields NaN. -/
theorem ratio_gt_iff (a b : Nat) (h : a ≤ b) :
    jsGt (jsDiv (.fin (a : ℚ)) (.fin (b : ℚ))) (.fin (qMk 4 5)) = true ↔ 4 * b < 5 * a := by
  rcases Nat.eq_zero_or_pos b with hb | hb
  · subst hb
    have ha : a = 0 := Nat.le_zero.mp h
    subst ha
    simp [jsDiv, jsGt]
  · have hbQ : ((b : ℚ)) ≠ 0 := by
      exact_mod_cast hb.ne'
    simp only [jsDiv, hbQ, if_false, jsGt, decide_eq_true_eq, qDiv_eq, qMk_eq]
    have h45 : (((4 : Int)) : ℚ) / (((5 : Nat)) : ℚ) < (a : ℚ) / (b : ℚ) ↔
        ((4 : ℚ)) / 5 < (a : ℚ) / (b : ℚ) := by norm_num
    rw [h45]
    rw [div_lt_div_iff₀ (by norm_num) (by exact_mod_cast hb)]
    constructor
    · intro hlt
      have : (4 * b : ℚ) < 5 * a := by linarith
      exact_mod_cast this
    · intro hlt
      have : (4 * b : ℚ) < 5 * a := by exact_mod_cast hlt
      linarith

/-- Folding a state-preserving step changes nothing. -/
theorem foldl_self (l : List β) (i : α) : l.foldl (fun s _ => s) i = i := by
  induction l generalizing i with
  | nil => rfl
  | cons x xs ih => exact ih i

/-- The prediction list accumulated by the evaluation fold: the initial
list followed by one `(actual, predicted)` pair per test row, in order. -/
theorem evalFold_preds (sq : JsNum → JsNum) (tr : List Row) (target : String)
    (features : List String) (w : String → JsNum) (b : JsNum) :
    ∀ (l : List Row) (acc : JsNum × JsNum × List (JsNum × JsNum)),
      (l.foldl (evalStep sq tr target features w b) acc).2.2 =
        acc.2.2 ++ l.map (fun row =>
          (cellNum (getCell row target), predictedOf sq tr target features w b row)) := by
  intro l
  induction l with
  | nil => intro acc; simp
  | cons row rest ih =>
    intro acc
    simp only [List.foldl_cons, List.map_cons]
    rw [ih]
    simp [evalStep, predictedOf]

/-- Every stat produced by `analyzeColumns` is the canonical stat of its
own column name. -/
theorem mem_analyzeColumns (data : List Row) (st : ColumnStat)
    (h : st ∈ analyzeColumns data) : st = statFor data st.name := by
  cases data with
  | nil => simp [analyzeColumns] at h
  | cons r0 rest =>
    simp only [analyzeColumns] at h
    obtain ⟨k, _, rfl⟩ := List.mem_map.mp h
    rfl

/-- A numeric-profiled column has at least one non-missing value: with
none, the `0/0` share is NaN, the `> 0.8` test fails and the column is
profiled as a string column. -/
theorem statFor_number_nonempty (data : List Row) (key : String)
    (h : (statFor data key).type = CType.number) :
    ((colCells data key).filter (fun c => !(isMissingA c))).length ≠ 0 := by
  intro hlen
  have hnc : (((colCells data key).filter (fun c => !(isMissingA c))).filter
      (fun c => isNumCell c)).length = 0 :=
    Nat.le_zero.mp (le_trans (List.length_filter_le _ _) (le_of_eq hlen))
  simp only [statFor, hlen, hnc, Nat.cast_zero] at h
  simp [jsDiv, jsGt] at h

/-- Summing a list of finite numeric cells with the JavaScript `+` from a
finite numeric accumulator yields the exact rational sum. -/
theorem foldl_jsAddCell_fin :
    ∀ (l : List Cell), (∀ v ∈ l, isFinNum v = true) → ∀ (a : ℚ),
      l.foldl jsAddCell (Cell.num (.fin a)) = Cell.num (.fin (a + (l.map ratOfCell).sum)) := by
  intro l
  induction l with
  | nil => intro _ a; simp
  | cons v rest ih =>
    intro hall a
    have hv : isFinNum v = true := hall v (List.mem_cons_self _ _)
    match v, hv with
    | .num (.fin q), _ =>
      have step : jsAddCell (Cell.num (.fin a)) (Cell.num (.fin q)) =
          Cell.num (.fin (qAdd a q)) := rfl
      rw [qAdd_eq] at step
      simp only [List.foldl_cons, step]
      rw [ih (fun x hx => hall x (List.mem_cons_of_mem _ hx)) (a + q)]
      simp [ratOfCell, add_assoc]

/-- When every non-missing cell of a column is a finite number, the two
missing-value tests (the analyzer's, which also counts `undefined`, and the
cleaner's, which does not) select the same non-missing values. -/
theorem filters_eq_of_finNum (rows : List Row) (c : String)
    (hfin : ∀ r ∈ rows, isMissingNE (getCell r c) = false → isFinNum (getCell r c) = true) :
    (colCells rows c).filter (fun v => !(isMissingA v)) =
      (colCells rows c).filter (fun v => !(isMissingNE v)) := by
  apply List.filter_congr
  intro v hv
  obtain ⟨r, hr, hrv⟩ := List.mem_map.mp hv
  subst hrv
  cases hcell : getCell r c with
  | num j => simp [isMissingA, isMissingNE]
  | str s => simp [isMissingA, isMissingNE]
  | null => simp [isMissingA, isMissingNE]
  | undefined =>
    have hf := hfin r hr (by rw [hcell]; rfl)
    rw [hcell] at hf
    simp [isFinNum] at hf

/-- Claim C2: `cleanRows` with method `drop_rows` removes exactly the rows
in which at least one target column holds a missing value (`null` or the
empty string) — the result is the final deduplication applied to the rows
in which every target column is non-missing, which pass through unchanged —
and no returned row has a missing value in any targeted column. -/
theorem claim_C2 (rows : List Row) (stats : List ColumnStat) (tcols : List String) :
    cleanData rows stats ⟨CleanMethod.drop_rows, tcols⟩ =
      dedupRows (rows.filter (fun r => tcols.all (fun c => !(isMissingNE (getCell r c)))))
    ∧ ∀ r ∈ cleanData rows stats ⟨CleanMethod.drop_rows, tcols⟩,
        ∀ c ∈ tcols, isMissingNE (getCell r c) = false := by
  have hmain : cleanData rows stats ⟨CleanMethod.drop_rows, tcols⟩ =
      dedupRows (rows.filter (fun r => tcols.all (fun c => !(isMissingNE (getCell r c))))) := by
    simp only [cleanData, if_pos]
    congr 1
    apply List.filter_congr
    intro r _
    exact bool_not_any _ _
  refine ⟨hmain, ?_⟩
  intro r hr c hc
  rw [hmain] at hr
  have hrf := dedupAux_mem jsonRow [] _ r hr
  have hall := (List.mem_filter.mp hrf).2
  have := List.all_eq_true.mp hall c hc
  simpa using this

/-- Claim C5: `parseTable` emits one row per non-empty data line whose
field count matches the header count and silently drops every other data
line; on the scenario CSV `x,y` + `foo,1` + `bar,` with an injected line
`1,2,3`, exactly 2 data rows are produced. -/
theorem claim_C5 :
    (∀ text : String,
      (parseCSV text).length =
        if (csvLines text).length < 2 then 0
        else (((csvLines text).drop 1).filter (fun l =>
          decide (jsTrim l ≠ "" ∧
            (splitFields (jsTrim l)).length = (csvHeaders text).length))).length)
    ∧ (parseCSV "x,y\nfoo,1\nbar,\n1,2,3").length = 2 := by
  constructor
  · intro text
    by_cases h : (csvLines text).length < 2
    · simp [parseCSV, h]
    · simp only [parseCSV, h, if_false]
      rw [length_filterMap_eq]
      congr 1
      apply List.filter_congr
      intro l _
      exact lineToRow_isSome _ _
  · decide

/-- Claim C8: `cleanRows` with an empty target-column set is the
unconditional deduplication, so a second application returns exactly the
rows of the first; the result is a sublist of the input (original order,
first occurrences), its serializations are pairwise distinct, and every
input row is represented in it. -/
theorem claim_C8 (rows : List Row) (s1 s2 : List ColumnStat) (m1 m2 : CleanMethod) :
    cleanData (cleanData rows s1 ⟨m1, []⟩) s2 ⟨m2, []⟩ = cleanData rows s1 ⟨m1, []⟩
    ∧ List.Sublist (cleanData rows s1 ⟨m1, []⟩) rows
    ∧ ((cleanData rows s1 ⟨m1, []⟩).map jsonRow).Nodup
    ∧ ∀ r ∈ rows, jsonRow r ∈ (cleanData rows s1 ⟨m1, []⟩).map jsonRow := by
  rw [cleanData_empty_targets, cleanData_empty_targets]
  simp only [dedupRows]
  refine ⟨dedupAux_idem _ _ _, dedupAux_sublist _ _ _, (dedupAux_nodup _ _ _).1, ?_⟩
  intro r hr
  rcases dedupAux_covers jsonRow [] rows r hr with h | h
  · cases h
  · exact h

/-- Claim C10: filling a column whose every cell is missing injects the
JavaScript `undefined` (the mode of an empty value list) into the returned
rows — a value that is none of number, string, or null, violating the
declared cell type. -/
theorem claim_C10 :
    cleanData [[("a", Cell.null)]] (analyzeColumns [[("a", Cell.null)]])
        ⟨CleanMethod.fill_mean, ["a"]⟩ = [[("a", Cell.undefined)]]
    ∧ (∀ j : JsNum, Cell.undefined ≠ Cell.num j)
    ∧ (∀ s : String, Cell.undefined ≠ Cell.str s)
    ∧ Cell.undefined ≠ Cell.null := by
  refine ⟨by decide, fun j h => Cell.noConfusion h, fun s h => Cell.noConfusion h,
    fun h => Cell.noConfusion h⟩

/-- The numeric non-missing count is at most the non-missing count. -/
theorem numericCount_le (data : List Row) (k : String) :
    numericCount data k ≤ nonMissingCount data k := by
  have hcounts : (((colCells data k).filter (fun c => !(isMissingA c))).filter
      (fun c => isNumCell c)).length = numericCount data k := by
    rw [List.filter_filter]
    unfold numericCount
    congr 1
    apply List.filter_congr
    intro c _
    exact Bool.and_comm _ _
  rw [← hcounts]
  exact List.length_filter_le _ _

/-- The type inferred by `statFor` is `number` exactly when strictly more
than 4/5 of the non-missing values are numeric. -/
theorem statFor_type_iff (data : List Row) (k : String) :
    (statFor data k).type = CType.number ↔
      4 * nonMissingCount data k < 5 * numericCount data k := by
  have hcounts : (((colCells data k).filter (fun c => !(isMissingA c))).filter
      (fun c => isNumCell c)).length = numericCount data k := by
    rw [List.filter_filter]
    unfold numericCount
    congr 1
    apply List.filter_congr
    intro c _
    exact Bool.and_comm _ _
  have hiff := ratio_gt_iff (numericCount data k) (nonMissingCount data k)
    (numericCount_le data k)
  simp only [statFor]
  rw [hcounts]
  rw [show ((colCells data k).filter (fun c => !(isMissingA c))).length =
    nonMissingCount data k from rfl]
  split_ifs with hc
  · exact iff_of_true rfl (hiff.mp hc)
  · exact iff_of_false (by simp) (fun hlt => hc (hiff.mpr hlt))

/-- Claim C4: `profileColumns` classifies a column as `number` exactly when
the numeric non-missing count strictly exceeds 4/5 of the non-missing
count, and a column with zero non-missing values is classified `string`
(the NaN of the 0/0 share fails the `> 0.8` comparison). -/
theorem claim_C4 (data : List Row) (st : ColumnStat) (hmem : st ∈ analyzeColumns data) :
    (st.type = CType.number ↔
      4 * nonMissingCount data st.name < 5 * numericCount data st.name)
    ∧ (nonMissingCount data st.name = 0 → st.type = CType.string) := by
  have hst := mem_analyzeColumns data st hmem
  have hiff := statFor_type_iff data st.name
  rw [← hst] at hiff
  refine ⟨hiff, ?_⟩
  intro h0
  have hnot : ¬ (4 * nonMissingCount data st.name < 5 * numericCount data st.name) := by
    have hle := numericCount_le data st.name
    omega
  cases hty : st.type
  · exact absurd (hiff.mp hty) hnot
  · rfl

/-- Witness for claim C4 at a one-row, one-number column. -/
theorem claim_C4_witness :
    (⟨"a", CType.number, 1, 2, [Cell.num (.fin 1), Cell.num (.fin 2)]⟩ : ColumnStat) ∈
      analyzeColumns rowsSmallFill
    ∧ (((⟨"a", CType.number, 1, 2, [Cell.num (.fin 1), Cell.num (.fin 2)]⟩ : ColumnStat).type =
          CType.number ↔
        4 * nonMissingCount rowsSmallFill "a" < 5 * numericCount rowsSmallFill "a")
      ∧ (nonMissingCount rowsSmallFill "a" = 0 →
        (⟨"a", CType.number, 1, 2, [Cell.num (.fin 1), Cell.num (.fin 2)]⟩ : ColumnStat).type =
          CType.string)) := by
  have hlist : analyzeColumns rowsSmallFill =
      [⟨"a", CType.number, 1, 2, [Cell.num (.fin 1), Cell.num (.fin 2)]⟩] := by decide
  have hmem : (⟨"a", CType.number, 1, 2,
      [Cell.num (.fin 1), Cell.num (.fin 2)]⟩ : ColumnStat) ∈ analyzeColumns rowsSmallFill := by
    rw [hlist]
    exact List.mem_singleton.mpr rfl
  exact ⟨hmem, claim_C4 rowsSmallFill _ hmem⟩

/-- Claim C1 is refuted as stated: in this row set the column `a` is
profiled as numeric (five numbers against one string), yet `fill_mean`
replaces the missing cell with NaN — the JavaScript `reduce` concatenates
the stray string and the division of the garbled sum yields NaN — which is
no arithmetic mean (it is not any finite number). -/
theorem claim_C1_counterexample :
    (analyzeColumns rowsMixedNumeric).find? (fun s => s.name == "a") =
      some ⟨"a", CType.number, 1, 6, [Cell.num (.fin 1), Cell.num (.fin 2), Cell.num (.fin 3),
        Cell.num (.fin 4), Cell.num (.fin 5)]⟩
    ∧ (cleanData rowsMixedNumeric (analyzeColumns rowsMixedNumeric)
        ⟨CleanMethod.fill_mean, ["a"]⟩).getD 6 [] = [("a", Cell.num JsNum.nan)]
    ∧ ∀ q : ℚ, Cell.num JsNum.nan ≠ Cell.num (JsNum.fin q) := by
  refine ⟨by decide, by decide, ?_⟩
  intro q h
  exact JsNum.noConfusion (Cell.num.inj h)

/-- Claim C1 (amended): when the targeted fill column is profiled as
numeric and all of its non-missing values are finite numbers, `cleanRows`
with `fill_mean` replaces exactly the missing cells of that column with the
arithmetic mean of the column's pre-fill non-missing values, leaves every
other cell untouched, and the returned rows have no missing value in that
column. -/
theorem claim_C1_amended (rows : List Row) (c : String) (st : ColumnStat)
    (hfind : (analyzeColumns rows).find? (fun s => s.name == c) = some st)
    (htype : st.type = CType.number)
    (hfin : ∀ r ∈ rows, isMissingNE (getCell r c) = false → isFinNum (getCell r c) = true) :
    applyFills (analyzeColumns rows) CleanMethod.fill_mean rows [c] =
      rows.map (fun r =>
        if isMissingNE (getCell r c) then
          setCell r c (Cell.num (JsNum.fin (specMean rows c)))
        else r)
    ∧ ∀ r ∈ cleanData rows (analyzeColumns rows) ⟨CleanMethod.fill_mean, [c]⟩,
        isMissingNE (getCell r c) = false := by
  have hmem : st ∈ analyzeColumns rows := List.mem_of_find?_eq_some hfind
  have hname : st.name = c := by
    have := List.find?_some hfind
    simpa using this
  have hst : st = statFor rows c := by
    have h1 := mem_analyzeColumns rows st hmem
    rw [hname] at h1
    exact h1
  have hVfin : ∀ v ∈ (rows.map (fun r => getCell r c)).filter (fun v => !(isMissingNE v)),
      isFinNum v = true := by
    intro v hv
    obtain ⟨r, hr, hrv⟩ := List.mem_map.mp (List.mem_of_mem_filter hv)
    have hne := List.of_mem_filter hv
    subst hrv
    exact hfin r hr (by simpa using hne)
  have hfilters := filters_eq_of_finNum rows c hfin
  have hlen0 : ((rows.map (fun r => getCell r c)).filter (fun v => !(isMissingNE v))).length ≠
      0 := by
    have hnon := statFor_number_nonempty rows c (hst ▸ htype)
    rw [hfilters] at hnon
    simpa [colCells] using hnon
  have hfv : fillValueFor CleanMethod.fill_mean st
      ((rows.map (fun r => getCell r c)).filter (fun v => !(isMissingNE v))) =
      Cell.num (JsNum.fin (specMean rows c)) := by
    rw [fillValueFor, if_pos htype]
    have hsum : ((rows.map (fun r => getCell r c)).filter
          (fun v => !(isMissingNE v))).foldl jsAddCell (Cell.num (.fin 0)) =
        Cell.num (.fin ((((rows.map (fun r => getCell r c)).filter
          (fun v => !(isMissingNE v))).map ratOfCell).sum)) := by
      simpa using foldl_jsAddCell_fin _ hVfin 0
    rw [hsum]
    have hlenQ : ((((rows.map (fun r => getCell r c)).filter
        (fun v => !(isMissingNE v))).length : Nat) : ℚ) ≠ 0 := by
      exact_mod_cast hlen0
    simp only [cellToNumber, jsDiv, hlenQ, if_false, qDiv_eq]
    rw [specMean]
    simp [colCells]
  have hmain : applyFills (analyzeColumns rows) CleanMethod.fill_mean rows [c] =
      rows.map (fun r =>
        if isMissingNE (getCell r c) then
          setCell r c (Cell.num (JsNum.fin (specMean rows c)))
        else r) := by
    show fillColumn (analyzeColumns rows) CleanMethod.fill_mean rows c = _
    simp only [fillColumn, hfind]
    rw [hfv]
  refine ⟨hmain, ?_⟩
  intro r hr
  have hne : CleaningOptions.method ⟨CleanMethod.fill_mean, [c]⟩ ≠ CleanMethod.drop_rows :=
    fun h => CleanMethod.noConfusion h
  simp only [cleanData, hne, ite_false] at hr
  have hr2 := dedupAux_mem jsonRow [] _ r hr
  rw [hmain] at hr2
  obtain ⟨r0, _, rfl⟩ := List.mem_map.mp hr2
  by_cases hmiss : isMissingNE (getCell r0 c) = true
  · rw [if_pos hmiss, getCell_setCell]
    rfl
  · rw [if_neg hmiss]
    simpa using hmiss

/-- Witness for the amended claim C1 on a three-row column with values 1
and 2 and one missing cell: the fill value is the mean 3/2. -/
theorem claim_C1_witness :
    ((analyzeColumns rowsSmallFill).find? (fun s => s.name == "a") =
      some ⟨"a", CType.number, 1, 2, [Cell.num (.fin 1), Cell.num (.fin 2)]⟩)
    ∧ ((⟨"a", CType.number, 1, 2, [Cell.num (.fin 1), Cell.num (.fin 2)]⟩ : ColumnStat).type =
        CType.number)
    ∧ (∀ r ∈ rowsSmallFill, isMissingNE (getCell r "a") = false →
        isFinNum (getCell r "a") = true)
    ∧ (applyFills (analyzeColumns rowsSmallFill) CleanMethod.fill_mean rowsSmallFill ["a"] =
        rowsSmallFill.map (fun r =>
          if isMissingNE (getCell r "a") then
            setCell r "a" (Cell.num (JsNum.fin (specMean rowsSmallFill "a")))
          else r)
      ∧ ∀ r ∈ cleanData rowsSmallFill (analyzeColumns rowsSmallFill)
          ⟨CleanMethod.fill_mean, ["a"]⟩,
          isMissingNE (getCell r "a") = false) :=
  ⟨by decide, by decide, by decide,
   claim_C1_amended rowsSmallFill "a"
     ⟨"a", CType.number, 1, 2, [Cell.num (.fin 1), Cell.num (.fin 2)]⟩
     (by decide) (by decide) (by decide)⟩

/-- Claim C3: `trainRegression` retains exactly the rows whose target and
feature cells are numbers, splits at `floor(count * ratio)` without
shuffling, and evaluates on rows `[splitIndex, end)` in original order: the
actuals of the returned predictions are exactly the target values of the
retained rows from the split index on, the prediction count is the size of
that suffix, the two slices partition the retained rows, and the split
index is the floor of `count * ratio`. -/
theorem claim_C3 (sq : JsNum → JsNum) (data : List Row) (target : String)
    (features : List String) (frac : ℚ) (hfrac : 0 ≤ frac) :
    (trainModel sq data target features frac).predictions.map Prod.fst =
      ((data.filter (validRow target features)).drop
        (⌊((data.filter (validRow target features)).length : ℚ) * frac⌋).toNat).map
        (fun r => cellNum (getCell r target))
    ∧ (trainModel sq data target features frac).predictions.length =
        (data.filter (validRow target features)).length -
          (⌊((data.filter (validRow target features)).length : ℚ) * frac⌋).toNat
    ∧ ((data.filter (validRow target features)).take
          (⌊((data.filter (validRow target features)).length : ℚ) * frac⌋).toNat) ++
        ((data.filter (validRow target features)).drop
          (⌊((data.filter (validRow target features)).length : ℚ) * frac⌋).toNat) =
        data.filter (validRow target features)
    ∧ (((⌊((data.filter (validRow target features)).length : ℚ) * frac⌋).toNat : Int)) =
        ⌊((data.filter (validRow target features)).length : ℚ) * frac⌋ := by
  have hq : qMul (((data.filter (validRow target features)).length : Nat) : ℚ) frac =
      ((data.filter (validRow target features)).length : ℚ) * frac := qMul_eq _ _
  refine ⟨?_, ?_, List.take_append_drop _ _,
    Int.toNat_of_nonneg (Int.floor_nonneg.mpr (mul_nonneg (Nat.cast_nonneg _) hfrac))⟩
  · simp only [trainModel, hq]
    rw [evalFold_preds]
    simp [List.map_map]
    rfl
  · simp only [trainModel, hq]
    rw [evalFold_preds]
    simp

/-- Witness for claim C3 at two numeric rows and split ratio 1/2. -/
theorem claim_C3_witness :
    ((0 : ℚ) ≤ qMk 1 2)
    ∧ ((trainModel (fun _ => JsNum.nan) rowsSmallFill "a" [] (qMk 1 2)).predictions.map
        Prod.fst =
      ((rowsSmallFill.filter (validRow "a" [])).drop
        (⌊((rowsSmallFill.filter (validRow "a" [])).length : ℚ) * qMk 1 2⌋).toNat).map
        (fun r => cellNum (getCell r "a"))
      ∧ (trainModel (fun _ => JsNum.nan) rowsSmallFill "a" [] (qMk 1 2)).predictions.length =
          (rowsSmallFill.filter (validRow "a" [])).length -
            (⌊((rowsSmallFill.filter (validRow "a" [])).length : ℚ) * qMk 1 2⌋).toNat
      ∧ ((rowsSmallFill.filter (validRow "a" [])).take
            (⌊((rowsSmallFill.filter (validRow "a" [])).length : ℚ) * qMk 1 2⌋).toNat) ++
          ((rowsSmallFill.filter (validRow "a" [])).drop
            (⌊((rowsSmallFill.filter (validRow "a" [])).length : ℚ) * qMk 1 2⌋).toNat) =
          rowsSmallFill.filter (validRow "a" [])
      ∧ (((⌊((rowsSmallFill.filter (validRow "a" [])).length : ℚ) * qMk 1 2⌋).toNat : Int)) =
          ⌊((rowsSmallFill.filter (validRow "a" [])).length : ℚ) * qMk 1 2⌋) :=
  ⟨by decide, claim_C3 (fun _ => JsNum.nan) rowsSmallFill "a" [] (qMk 1 2) (by decide)⟩

/-- Reading a key that was not just assigned is unchanged. -/
theorem getCell_setCell_ne (r : Row) (k2 k : String) (v : Cell) (h : k2 ≠ k) :
    getCell (setCell r k2 v) k = getCell r k := by
  induction r with
  | nil =>
    have hb : (k2 == k) = false := by simp [h]
    simp [setCell, getCell, List.find?, hb]
  | cons kv r ih =>
    by_cases hk : kv.1 = k2
    · have hb : (k2 == k) = false := by simp [h]
      have hb2 : (kv.1 == k) = false := by simp [hk, h]
      simp [setCell, hk, getCell, List.find?, hb, hb2]
    · simp only [setCell, hk, ite_false]
      by_cases hkk : kv.1 = k
      · have hb : (kv.1 == k) = true := by simp [hkk]
        simp [getCell, List.find?, hb]
      · have hb : (kv.1 == k) = false := by simp [hkk]
        simpa [getCell, List.find?, hb] using ih

/-- `find?` over an appended list looks left first. -/
theorem listFindAppend (p : α → Bool) :
    ∀ l1 l2 : List α, (l1 ++ l2).find? p =
      (match l1.find? p with
       | some x => some x
       | none => l2.find? p) := by
  intro l1 l2
  induction l1 with
  | nil => rfl
  | cons a l1 ih =>
    cases hp : p a with
    | true => simp [List.find?, hp]
    | false => simpa [List.find?, hp] using ih

/-- Reading a key from the row-building fold gives the cast of the last
field text assigned to that key, falling back to the initial row — the
insertion-order overwrite semantics of a JavaScript object literal built by
`row[header] = value` in header order. -/
theorem getCell_buildRow_foldl (k : String) :
    ∀ (pairs : List (String × String)) (r0 : Row),
      getCell (pairs.foldl (fun acc kv => setCell acc kv.1 (mkCell kv.2)) r0) k =
        (match pairs.reverse.find? (fun kv => kv.1 == k) with
         | some kv => mkCell kv.2
         | none => getCell r0 k) := by
  intro pairs
  induction pairs with
  | nil => intro r0; rfl
  | cons kv pairs ih =>
    intro r0
    simp only [List.foldl_cons]
    rw [ih]
    rw [List.reverse_cons, listFindAppend]
    cases hfind : pairs.reverse.find? (fun kv2 => kv2.1 == k) with
    | some kv2 => rfl
    | none =>
      simp only [List.find?]
      by_cases hk : kv.1 = k
      · have hb : (kv.1 == k) = true := by simp [hk]
        rw [hb]
        subst hk
        exact getCell_setCell r0 kv.1 (mkCell kv.2)
      · have hb : (kv.1 == k) = false := by simp [hk]
        rw [hb]
        exact getCell_setCell_ne r0 kv.1 k (mkCell kv.2) hk

/-- Claim C6: each cell of an emitted row is the cast of that row's own
trimmed, quote-stripped field text.  Reading any column name from an
emitted row gives exactly `mkCell` of the last field text its line pairs
with that header (`undefined` for names that are no header); and the cast
is the `parseFloat` number when that parse succeeds, `null` when the field
text is empty, and the original field text as a string otherwise. -/
theorem claim_C6 :
    (∀ (text : String) (r : Row), r ∈ parseCSV text →
      ∃ l ∈ (csvLines text).drop 1,
        jsTrim l ≠ "" ∧
        (splitFields (jsTrim l)).length = (csvHeaders text).length ∧
        ∀ k : String,
          getCell r k =
            (match ((csvHeaders text).zip (splitFields (jsTrim l))).reverse.find?
                (fun kv => kv.1 == k) with
             | some kv => mkCell kv.2
             | none => Cell.undefined))
    ∧ (∀ v : String,
        ((jsParseFloat v).isNaN = false → mkCell v = Cell.num (jsParseFloat v))
        ∧ ((jsParseFloat v).isNaN = true → v = "" → mkCell v = Cell.null)
        ∧ ((jsParseFloat v).isNaN = true → v ≠ "" → mkCell v = Cell.str v)) := by
  constructor
  · intro text r hr
    obtain ⟨l, hl, hline⟩ := mem_parseCSV text r hr
    obtain ⟨h1, h2, h3⟩ := lineToRow_eq_some _ _ _ hline
    refine ⟨l, hl, h1, h2, ?_⟩
    intro k
    rw [h3]
    show getCell (((csvHeaders text).zip (splitFields (jsTrim l))).foldl
        (fun acc kv => setCell acc kv.1 (mkCell kv.2)) []) k = _
    rw [getCell_buildRow_foldl]
    cases hfind : ((csvHeaders text).zip (splitFields (jsTrim l))).reverse.find?
        (fun kv => kv.1 == k) with
    | some kv => rfl
    | none => rfl
  · intro v
    refine ⟨?_, ?_, ?_⟩
    · intro h
      simp [mkCell, h]
    · intro h he
      have h2 : (jsParseFloat "").isNaN = true := by rwa [he] at h
      simp [mkCell, h2, he]
    · intro h he
      simp [mkCell, h, he]

/-- Claim C7 is refuted as stated: the CSV `a,a` + `1,2` is non-empty (its
parse yields one row), has two header columns, but `profileColumns`
produces a single stat, because the duplicated header collapses to one
object key. -/
theorem claim_C7_counterexample :
    parseCSV "a,a\n1,2" ≠ []
    ∧ (analyzeColumns (parseCSV "a,a\n1,2")).length ≠ (csvHeaders "a,a\n1,2").length :=
  ⟨by decide, by decide⟩

/-- Claim C7 (amended): for every CSV whose parse yields at least one row,
the number of stats produced by `profileColumns` equals the number of
distinct header names (first occurrences). -/
theorem claim_C7_amended (text : String) (h : parseCSV text ≠ []) :
    (analyzeColumns (parseCSV text)).length = (nub (csvHeaders text)).length := by
  obtain ⟨r0, rest, hcons⟩ : ∃ r0 rest, parseCSV text = r0 :: rest := by
    cases hp : parseCSV text with
    | nil => exact absurd hp h
    | cons a b => exact ⟨a, b, rfl⟩
  have hr0 : r0 ∈ parseCSV text := by
    rw [hcons]; exact List.mem_cons_self _ _
  obtain ⟨l, _, hline⟩ := mem_parseCSV text r0 hr0
  obtain ⟨_, hlen, hbuild⟩ := lineToRow_eq_some _ _ _ hline
  have hkeys : r0.map Prod.fst = nub (csvHeaders text) := by
    rw [hbuild]
    exact keys_buildRow _ _ hlen
  rw [hcons]
  show ((r0.map (fun kv => kv.1)).map (statFor (r0 :: rest))).length = _
  rw [List.length_map]
  calc (r0.map (fun kv => kv.1)).length = (r0.map Prod.fst).length := rfl
    _ = (nub (csvHeaders text)).length := by rw [hkeys]

/-- Witness for the amended claim C7 on a two-column CSV with distinct
headers. -/
theorem claim_C7_witness :
    parseCSV "a,b\n1,2" ≠ []
    ∧ (analyzeColumns (parseCSV "a,b\n1,2")).length = (nub (csvHeaders "a,b\n1,2")).length :=
  ⟨by decide, claim_C7_amended "a,b\n1,2" (by decide)⟩

/-- Claim C9: with zero valid rows after filtering, `trainRegression`
raises no error — it returns a `Metrics` value whose mse, mae and r2 are
the NaN of the 0/0 divisions and whose prediction list is empty. -/
theorem claim_C9 (sq : JsNum → JsNum) (data : List Row) (target : String)
    (features : List String) (frac : ℚ)
    (h : data.filter (validRow target features) = []) :
    (trainModel sq data target features frac).predictions = []
    ∧ (trainModel sq data target features frac).mse = JsNum.nan
    ∧ (trainModel sq data target features frac).mae = JsNum.nan
    ∧ (trainModel sq data target features frac).r2 = JsNum.nan := by
  have htm : trainModel sq data target features frac =
      ⟨JsNum.nan, JsNum.nan, JsNum.nan, []⟩ := by
    simp only [trainModel, h, List.length_nil, List.take_nil, List.drop_nil,
      List.foldl_nil, Nat.cast_zero]
    simp [jsDiv, jsSub, jsNeg, jsAdd]
  rw [htm]
  exact ⟨rfl, rfl, rfl, rfl⟩

/-- Witness for claim C9 on a one-row input whose target cell is a string,
so that no row survives the validity filter. -/
theorem claim_C9_witness :
    ([[("t", Cell.str "oops")]] : List Row).filter (validRow "t" ["f"]) = []
    ∧ ((trainModel (fun _ => JsNum.nan) [[("t", Cell.str "oops")]] "t" ["f"]
          (qMk 4 5)).predictions = []
      ∧ (trainModel (fun _ => JsNum.nan) [[("t", Cell.str "oops")]] "t" ["f"]
          (qMk 4 5)).mse = JsNum.nan
      ∧ (trainModel (fun _ => JsNum.nan) [[("t", Cell.str "oops")]] "t" ["f"]
          (qMk 4 5)).mae = JsNum.nan
      ∧ (trainModel (fun _ => JsNum.nan) [[("t", Cell.str "oops")]] "t" ["f"]
          (qMk 4 5)).r2 = JsNum.nan) :=
  ⟨by decide,
   claim_C9 (fun _ => JsNum.nan) [[("t", Cell.str "oops")]] "t" ["f"] (qMk 4 5) (by decide)⟩
